import Mathlib

/-! Verification of the file-archive-tagger catalog core against its
natural-language specification.

The Go sources are shallowly embedded:

* the SQLite tables (`files`, `taxonomies`, `tags`, `file_tags`) become
  lists of rows inside a `Catalog` structure; `INTEGER PRIMARY KEY`
  generation becomes explicit `next*Id` counters;
* each database method of `internal/database` (`AddFile`, `TagFile`,
  `AddTaxonomy`, `SearchByTag`, `GetFilePathByHash`, `GetAllFiles`)
  becomes a pure function on `Catalog`;
* the Go standard-library path helpers used by the code
  (`filepath.Base`, `filepath.Join` / `filepath.Clean`) are translated
  from their documented lexical algorithms, operating on `List Char`;
* fallible operations return the post state paired with an optional
  error, mirroring the Go control flow (early `return err`, deferred
  transaction rollback, final commit).
-/

namespace Fart

/-! Path-string helpers: Go `path/filepath`, lexical part. -/

/-- Split a character list at every occurrence of the separator
character.  Models splitting a path string on `'/'`. -/
def splitCh (sep : Char) : List Char → List (List Char)
  | [] => [[]]
  | c :: cs =>
    match splitCh sep cs with
    | [] => [[]]
    | h :: t => if c = sep then [] :: h :: t else (c :: h) :: t

/-- Whether a path begins with `'/'` (Go `filepath.IsAbs` for the
slash-separated lexical form). -/
def isRooted : List Char → Bool
  | [] => false
  | c :: _ => c == '/'

/-- One step of Go `filepath.Clean`'s component processing: `..` pops a
previous component when possible, is dropped at the root, and is kept at
the front of a relative path; every other component is appended. -/
def cleanStep (rooted : Bool) (acc : List (List Char)) (comp : List Char) : List (List Char) :=
  if comp = ['.', '.'] then
    match acc.getLast? with
    | some l => if l = ['.', '.'] then acc ++ [comp] else acc.dropLast
    | none => if rooted then [] else [comp]
  else acc ++ [comp]

/-- Replacement of an empty cleaned path by `"."`, the final step of Go
`filepath.Clean`. -/
def dotIfEmpty (l : List Char) : List Char := if l = [] then ['.'] else l

/-- The kept components of a path: empty and `.` components are
dropped by Go `filepath.Clean`. -/
def keptComps (l : List Char) : List (List Char) :=
  (splitCh '/' l).filter (fun c => !(c = [] ∨ c = ['.'] : Bool))

/-- Go `filepath.Clean` on the character list of a path: drop empty and
`.` components, resolve `..`, re-join with `'/'`, and return `.` for an
empty result. -/
def cleanData (l : List Char) : List Char :=
  if l = [] then ['.']
  else
    dotIfEmpty ((if isRooted l then ['/'] else []) ++
      List.intercalate ['/'] ((keptComps l).foldl (cleanStep (isRooted l)) []))

/-- Go `filepath.Clean` on strings. -/
def clean (s : String) : String := ⟨cleanData s.data⟩

/-- Go `filepath.Join(a, b)`: concatenate the non-empty arguments with
`'/'` and clean the result; the join of two empty strings is empty. -/
def goJoin (a b : String) : String :=
  if a ≠ "" then clean (a ++ "/" ++ b)
  else if b ≠ "" then clean b
  else ""

/-- Go `filepath.Base`: the last element of the path after trailing
slashes are removed; `"."` for the empty path and `"/"` for a path of
slashes only. -/
def baseName (s : String) : String :=
  if s = "" then "."
  else
    let cs := (s.data.reverse.dropWhile (fun c => c = '/')).reverse
    if cs = [] then "/"
    else ⟨(cs.reverse.takeWhile (fun c => !(c = '/' : Bool))).reverse⟩

/-- Go `filepath.Dir`: everything up to the final slash, cleaned;
`"."` when the path holds no slash. -/
def dirName (p : String) : String :=
  clean ⟨(p.data.reverse.dropWhile (fun c => !(c = '/' : Bool))).reverse⟩

/-! The catalog data model: the four SQLite tables. -/

/-- One row of the `files` table: `files(id, filename, path, hash, size,
modified_at, UNIQUE(path, filename))`. -/
structure FileRow where
  id : Nat
  filename : String
  path : String
  hash : String
  size : Int
  modifiedAt : String
deriving DecidableEq, Repr

/-- One row of the `taxonomies` table: `taxonomies(id, name UNIQUE)`. -/
structure TaxRow where
  id : Nat
  name : String
deriving DecidableEq, Repr

/-- One row of the `tags` table:
`tags(id, taxonomy_id, name, UNIQUE(taxonomy_id, name))`. -/
structure TagRow where
  id : Nat
  taxonomyId : Nat
  name : String
deriving DecidableEq, Repr

/-- One row of the `file_tags` table:
`file_tags(file_id, tag_id, PRIMARY KEY(file_id, tag_id))`. -/
structure FileTagRow where
  fileId : Nat
  tagId : Nat
deriving DecidableEq, Repr

/-- The whole catalog database.  The `next*Id` counters model SQLite's
`INTEGER PRIMARY KEY` id generation. -/
structure Catalog where
  files : List FileRow
  taxonomies : List TaxRow
  tags : List TagRow
  fileTags : List FileTagRow
  nextFileId : Nat
  nextTaxId : Nat
  nextTagId : Nat
deriving DecidableEq, Repr

/-- The catalog right after `Initialize`: empty tables except for the
default `tags` taxonomy inserted by
`INSERT OR IGNORE INTO taxonomies (name) VALUES ('tags')`. -/
def initialCatalog : Catalog := ⟨[], [⟨1, "tags"⟩], [], [], 1, 2, 1⟩

/-! Name normalization: Go `strings.TrimSpace` and `strings.ToLower`. -/

/-- An ASCII whitespace character, as recognized by the trimming in
`strings.TrimSpace` on the names this tool handles. -/
def isSpaceCh (c : Char) : Bool := c = ' ' ∨ c = '\t' ∨ c = '\n' ∨ c = '\r'

/-- Go `strings.TrimSpace`: drop whitespace from both ends. -/
def trimSpace (s : String) : String :=
  ⟨((s.data.dropWhile isSpaceCh).reverse.dropWhile isSpaceCh).reverse⟩

/-- Go `strings.ToLower`. -/
def lowerStr (s : String) : String := ⟨s.data.map Char.toLower⟩

/-- The taxonomy-name normalization used by the taxonomy manager:
`strings.ToLower(strings.TrimSpace(name))`. -/
def normalizeName (s : String) : String := lowerStr (trimSpace s)

/-! Catalog store operations, from `internal/database`. -/

/-- Whether a `files` row has the uniqueness key (`path`, `filename`),
i.e. the column pair of `UNIQUE(path, filename)`. -/
def keyMatches (path filename : String) (r : FileRow) : Bool :=
  r.path == path && r.filename == filename

/-- Model of `DB.AddFile`: `INSERT INTO files ... ON CONFLICT(path, filename) DO
UPDATE SET hash = excluded.hash, size = excluded.size, modified_at =
excluded.modified_at`.  The upsert never fails, so the translation is a
total function. -/
def addFileDb (c : Catalog) (filename path hash : String) (size : Int)
    (modifiedAt : String) : Catalog :=
  if c.files.any (keyMatches path filename) then
    { c with files := c.files.map (fun r =>
        if keyMatches path filename r then
          { r with hash := hash, size := size, modifiedAt := modifiedAt }
        else r) }
  else
    { c with
      files := c.files ++ [⟨c.nextFileId, filename, path, hash, size, modifiedAt⟩],
      nextFileId := c.nextFileId + 1 }

/-- Model of `DB.AddTaxonomy`: plain `INSERT INTO taxonomies (name) VALUES (?)`;
the `UNIQUE` constraint makes it fail on an existing name. -/
def addTaxonomy (c : Catalog) (name : String) : Except String Catalog :=
  if c.taxonomies.any (fun t => t.name == name) then
    .error "failed to add taxonomy"
  else
    .ok { c with
          taxonomies := c.taxonomies ++ [⟨c.nextTaxId, name⟩],
          nextTaxId := c.nextTaxId + 1 }

/-- The `SELECT id FROM files WHERE path = ? AND filename = ?` lookup
used inside `DB.TagFile`. -/
def findFileId (c : Catalog) (path filename : String) : Option Nat :=
  (c.files.find? (keyMatches path filename)).map (fun r => r.id)

/-- The `INSERT INTO taxonomies ... ON CONFLICT(name) DO UPDATE SET name
= excluded.name RETURNING id` step of `DB.TagFile`: returns the id of
the existing row, or inserts a fresh one. -/
def getOrCreateTaxonomy (c : Catalog) (name : String) : Nat × Catalog :=
  match c.taxonomies.find? (fun t => t.name == name) with
  | some t => (t.id, c)
  | none =>
    (c.nextTaxId,
     { c with
       taxonomies := c.taxonomies ++ [⟨c.nextTaxId, name⟩],
       nextTaxId := c.nextTaxId + 1 })

/-- The `INSERT INTO tags ... ON CONFLICT(taxonomy_id, name) DO UPDATE
SET name = excluded.name RETURNING id` step of `DB.TagFile`. -/
def getOrCreateTag (c : Catalog) (taxonomyId : Nat) (name : String) : Nat × Catalog :=
  match c.tags.find? (fun t => t.taxonomyId == taxonomyId && t.name == name) with
  | some t => (t.id, c)
  | none =>
    (c.nextTagId,
     { c with
       tags := c.tags ++ [⟨c.nextTagId, taxonomyId, name⟩],
       nextTagId := c.nextTagId + 1 })

/-- The `INSERT INTO file_tags ... ON CONFLICT(file_id, tag_id) DO
NOTHING` step of `DB.TagFile`. -/
def insertFileTag (c : Catalog) (fileId tagId : Nat) : Catalog :=
  if c.fileTags.any (fun ft => ft.fileId == fileId && ft.tagId == tagId) then c
  else { c with fileTags := c.fileTags ++ [⟨fileId, tagId⟩] }

/-- The steps of `DB.TagFile` at which the storage engine can report an
error (each `if err != nil` check in the Go function). -/
inductive TagStep
  | lookupFile
  | upsertTaxonomy
  | upsertTag
  | insertAssoc
deriving DecidableEq, Repr

/-- Model of `DB.TagFile`, translated statement by statement.  `failAt` injects a
storage-engine error at the corresponding step, modelling each `if err
!= nil` early return.  The function opens a transaction (`tx`), runs all
writes against it, and commits only at the very end; an early return
triggers the deferred rollback, so the caller's database keeps the input
state `db`.  The file lookup queries `WHERE path = 'players'` — the Go
source passes the literal `"players"`, not a directory derived from
`filePath`. -/
def tagFile (failAt : TagStep → Bool) (db : Catalog)
    (filePath taxonomyName tagName : String) : Catalog × Option String :=
  let filename := baseName filePath
  if failAt .lookupFile then (db, some "file not found") else
  match findFileId db "players" filename with
  | none => (db, some "file not found")
  | some fileId =>
    if failAt .upsertTaxonomy then (db, some "failed to get/create taxonomy") else
    let r1 := getOrCreateTaxonomy db taxonomyName
    if failAt .upsertTag then (db, some "failed to create/get tag") else
    let r2 := getOrCreateTag r1.2 r1.1 tagName
    if failAt .insertAssoc then (db, some "failed to tag file") else
    (insertFileTag r2.2 fileId r2.1, none)

/-- Model of `DB.SearchByTag`: the four-table join rendering each matching file
as `f.path || '/' || f.filename`. -/
def searchByTag (c : Catalog) (taxonomyName tagName : String) : List String :=
  c.files.filterMap (fun f =>
    if c.fileTags.any (fun ft =>
        ft.fileId == f.id &&
        c.tags.any (fun t =>
          t.id == ft.tagId && t.name == tagName &&
          c.taxonomies.any (fun tax =>
            tax.id == t.taxonomyId && tax.name == taxonomyName))) then
      some (f.path ++ "/" ++ f.filename)
    else none)

/-- The first `files` row holding a given hash, if any (the unordered
`SELECT ... WHERE hash = ?` single-row query). -/
def findByHash (c : Catalog) (h : String) : Option FileRow :=
  c.files.find? (fun r => r.hash == h)

/-- Model of `DB.GetFilePathByHash`: the empty string when no row matches,
otherwise `filepath.Join(path, filename)` of the matched row. -/
def getFilePathByHash (c : Catalog) (h : String) : String :=
  match findByHash c h with
  | none => ""
  | some r => goJoin r.path r.filename

/-- Model of `DB.GetAllFiles`: every row rendered as `path || '/' || filename`. -/
def getAllFiles (c : Catalog) : List String :=
  c.files.map (fun r => r.path ++ "/" ++ r.filename)

/-! Taxonomy manager, from `internal/taxonomy`. -/

/-- Model of `Manager.InitTaxonomy`: reject the empty name, then normalize and
delegate to `AddTaxonomy`.  The emptiness test runs before trimming. -/
def initTaxonomy (c : Catalog) (name : String) : Except String Catalog :=
  if name = "" then .error "taxonomy name cannot be empty"
  else addTaxonomy c (normalizeName name)

/-- Model of `Manager.TagFile`: reject empty arguments, normalize the taxonomy
name only, and delegate to `DB.TagFile`. -/
def managerTagFile (failAt : TagStep → Bool) (c : Catalog)
    (filePath taxonomyName tagValue : String) : Catalog × Option String :=
  if filePath = "" ∨ taxonomyName = "" ∨ tagValue = "" then
    (c, some "file path, taxonomy name, and tag value are required")
  else tagFile failAt c filePath (normalizeName taxonomyName) tagValue

/-- Model of `Manager.SearchByTag`: reject empty arguments, normalize the
taxonomy name only, and delegate to `DB.SearchByTag`. -/
def managerSearchByTag (c : Catalog) (taxonomyName tagValue : String) :
    Except String (List String) :=
  if taxonomyName = "" ∨ tagValue = "" then
    .error "taxonomy name and tag value are required"
  else .ok (searchByTag c (normalizeName taxonomyName) tagValue)

/-! CLI bulk add and verify, from `internal/cli`. -/

/-- The metadata produced by `fileops.GetFileInfo` for a readable file. -/
structure FInfo where
  hash : String
  size : Int
  modifiedAt : String
deriving DecidableEq, Repr

/-- Model of `CLI.addFile`: hash the file (`none` models `GetFileInfo` failing on
an unreadable file), derive the relative directory from the input path,
and upsert the record.  `filepath.Rel(".", d)` is the identity on the
already-relative cleaned directory that `filepath.Dir` returns here. -/
def addFileCli (c : Catalog) (path : String) (info : Option FInfo) :
    Catalog × Option String :=
  match info with
  | none => (c, some "failed to get file info")
  | some fi => (addFileDb c (baseName path) (dirName path) fi.hash fi.size fi.modifiedAt, none)

/-- Model of `CLI.addDirectory`: `filepath.Walk` feeding every visited file to
`addFile`.  The walk callback returns `addFile`'s error unchanged, and a
non-nil callback error makes `filepath.Walk` stop: the items after the
failing one are never visited. -/
def addDirectory (c : Catalog) (items : List (String × Option FInfo)) :
    Catalog × Option String :=
  match items with
  | [] => (c, none)
  | it :: rest =>
    match addFileCli c it.1 it.2 with
    | (c', none) => addDirectory c' rest
    | (_, some e) => (c, some e)

/-- One expanded match of a `fart add` argument: a single file, or a
directory whose walk yields the listed items. -/
inductive AddMatch
  | file (path : String) (info : Option FInfo)
  | dir (items : List (String × Option FInfo))

/-- Processing of one match inside `HandleAddCommand`'s loop. -/
def processMatch (c : Catalog) (m : AddMatch) : Catalog × Option String :=
  match m with
  | .file p info => addFileCli c p info
  | .dir items => addDirectory c items

/-- Model of `HandleAddCommand`'s loop over the expanded matches: an error from
one match is printed as a warning and the loop continues with the next
match. -/
def handleAddMatches (c : Catalog) (ms : List AddMatch) : Catalog :=
  match ms with
  | [] => c
  | m :: rest => handleAddMatches (processMatch c m).1 rest

/-- One reconciliation finding printed by `HandleVerifyCommand`. -/
inductive Report
  | NewFile (p : String)
  | Moved (oldPath newPath : String)
  | Missing (p : String)
deriving DecidableEq, Repr

/-- The classification of one live file in the forward pass of
`HandleVerifyCommand`: look the hash up, report `New file` on the empty
sentinel, `Moved/renamed` on a differing path, nothing otherwise. -/
def verifyForwardStep (c : Catalog) (pr : String × String) : Option Report :=
  let matchingPath := getFilePathByHash c pr.2
  if matchingPath = "" then some (.NewFile pr.1)
  else if matchingPath ≠ pr.1 then some (.Moved matchingPath pr.1)
  else none

/-- The forward pass of `HandleVerifyCommand` over the live files,
given as pairs of walked path and content hash. -/
def verifyForward (c : Catalog) (live : List (String × String)) : List Report :=
  live.filterMap (verifyForwardStep c)

/-- The backward pass of `HandleVerifyCommand`: every catalog path that
does not exist on the filesystem (`ex`) is reported missing. -/
def verifyBackward (c : Catalog) (ex : String → Bool) : List Report :=
  (getAllFiles c).filterMap (fun q => if ex q then none else some (.Missing q))

/-- The number of `Missing q` findings in a report list. -/
def countMissing (l : List Report) (q : String) : Nat :=
  l.countP (fun x => decide (x = Report.Missing q))

/-! Concrete fixtures used to instantiate the theorems. -/

/-- A failure oracle under which every storage operation succeeds. -/
def noFail : TagStep → Bool := fun _ => false

/-- A failure oracle that makes the association insert fail. -/
def failAssoc : TagStep → Bool := fun s => decide (s = TagStep.insertAssoc)

/-- A catalog holding one file registered in the directory `docs`. -/
def catDocs : Catalog :=
  ⟨[⟨1, "report.pdf", "docs", "h1", 10, "2025-01-01 00:00:00"⟩], [⟨1, "tags"⟩], [], [], 2, 2, 1⟩

/-- A catalog holding one file registered in the directory `players`. -/
def catPlayers : Catalog :=
  ⟨[⟨1, "report.pdf", "players", "h1", 10, "2025-01-01 00:00:00"⟩], [⟨1, "tags"⟩], [], [], 2, 2, 1⟩

/-- A catalog with one file tagged `fantasy` under the `tags` taxonomy. -/
def c6cat : Catalog :=
  ⟨[⟨1, "a.txt", "docs", "h1", 1, "t"⟩], [⟨1, "tags"⟩], [⟨1, 1, "fantasy"⟩], [⟨1, 1⟩], 2, 2, 2⟩

/-- A catalog whose only file sits in the current directory, stored with
directory `"."` as `CLI.addFile` records it. -/
def catDot : Catalog := ⟨[⟨1, "a.txt", ".", "h1", 5, "t"⟩], [⟨1, "tags"⟩], [], [], 2, 2, 1⟩

/-- File metadata for a readable fixture file. -/
def fiGood : FInfo := ⟨"h9", 3, "t"⟩

/-- A filesystem-existence oracle on which no path exists. -/
def exNone : String → Bool := fun _ => false

/-! Helper lemmas about the tagging steps, used for the transaction
property. -/

/-- The taxonomy upsert returns the id of a row carrying the requested
name that is present in its output state. -/
theorem getOrCreateTaxonomy_spec (c : Catalog) (n : String) :
    ∃ t, t ∈ (getOrCreateTaxonomy c n).2.taxonomies ∧
      t.id = (getOrCreateTaxonomy c n).1 ∧ t.name = n := by
  unfold getOrCreateTaxonomy
  split
  case _ t hf =>
    exact ⟨t, List.mem_of_find?_eq_some hf, rfl, by simpa using List.find?_some hf⟩
  case _ hf =>
    exact ⟨⟨c.nextTaxId, n⟩, by simp, rfl, rfl⟩

/-- The tag upsert does not touch the `taxonomies` table. -/
theorem getOrCreateTag_taxonomies (c : Catalog) (i : Nat) (n : String) :
    (getOrCreateTag c i n).2.taxonomies = c.taxonomies := by
  unfold getOrCreateTag
  split <;> rfl

/-- The tag upsert returns the id of a row carrying the requested
taxonomy id and name that is present in its output state. -/
theorem getOrCreateTag_spec (c : Catalog) (i : Nat) (n : String) :
    ∃ t, t ∈ (getOrCreateTag c i n).2.tags ∧
      t.id = (getOrCreateTag c i n).1 ∧ t.taxonomyId = i ∧ t.name = n := by
  unfold getOrCreateTag
  split
  case _ t hf =>
    have hp := List.find?_some hf
    simp only [Bool.and_eq_true, beq_iff_eq] at hp
    exact ⟨t, List.mem_of_find?_eq_some hf, rfl, hp.1, hp.2⟩
  case _ hf =>
    exact ⟨⟨c.nextTagId, i, n⟩, by simp, rfl, rfl, rfl⟩

/-- The association insert leaves the `taxonomies` and `tags` tables
unchanged. -/
theorem insertFileTag_keeps (c : Catalog) (fid tid : Nat) :
    (insertFileTag c fid tid).taxonomies = c.taxonomies ∧
      (insertFileTag c fid tid).tags = c.tags := by
  unfold insertFileTag
  split <;> exact ⟨rfl, rfl⟩

/-- After the association insert, the requested link row is present. -/
theorem insertFileTag_mem (c : Catalog) (fid tid : Nat) :
    FileTagRow.mk fid tid ∈ (insertFileTag c fid tid).fileTags := by
  unfold insertFileTag
  split
  case _ ha =>
    obtain ⟨ft, hmem, hp⟩ := List.any_eq_true.mp ha
    simp only [Bool.and_eq_true, beq_iff_eq] at hp
    obtain ⟨a, b⟩ := ft
    obtain ⟨rfl, rfl⟩ := hp
    exact hmem
  case _ ha => simp

/-- A successful file-id lookup names a row of the `files` table whose
stored directory is the literal `players`. -/
theorem findFileId_spec (c : Catalog) (path fn : String) (fid : Nat) :
    findFileId c path fn = some fid →
      ∃ f, f ∈ c.files ∧ f.id = fid ∧ f.path = path ∧ f.filename = fn := by
  intro h
  unfold findFileId at h
  cases hf : c.files.find? (keyMatches path fn) with
  | none => rw [hf] at h; exact absurd h (by simp)
  | some f =>
    rw [hf] at h
    have hp := List.find?_some hf
    simp only [keyMatches, Bool.and_eq_true, beq_iff_eq] at hp
    simp only [Option.map_some'] at h
    exact ⟨f, List.mem_of_find?_eq_some hf, by simpa using h, hp.1, hp.2⟩

/-- C1: the file-id lookup inside `TagFile` does not use the real
relative directory of the input path: it compares the stored `path`
column against the literal `"players"`.  Tagging a file registered under
the directory `docs` fails with `file not found` even though its record
is in the catalog, while a file registered under `players` is resolved
regardless of the directory in the supplied path. -/
theorem tagFile_hardcoded_directory :
    tagFile noFail catDocs "docs/report.pdf" "tags" "ideas" = (catDocs, some "file not found") ∧
      (tagFile noFail catPlayers "elsewhere/report.pdf" "tags" "ideas").2 = none :=
  ⟨rfl, rfl⟩

/-- C2: `TagFile` is transactional.  Whenever any step reports an error
(a storage failure injected by `failAt`, or the file-id lookup finding
no row), the catalog is exactly the input catalog: no partial rows
survive.  When no error is reported, the resulting catalog holds the
taxonomy row, the tag row under it, and the association row linking the
looked-up file, all together. -/
theorem tagFile_transactional (failAt : TagStep → Bool) (db : Catalog)
    (p tn tv : String) :
    ((tagFile failAt db p tn tv).2.isSome → (tagFile failAt db p tn tv).1 = db) ∧
      ((tagFile failAt db p tn tv).2 = none →
        ∃ tax, tax ∈ (tagFile failAt db p tn tv).1.taxonomies ∧ tax.name = tn ∧
          ∃ tg, tg ∈ (tagFile failAt db p tn tv).1.tags ∧
            tg.taxonomyId = tax.id ∧ tg.name = tv ∧
            ∃ f, f ∈ db.files ∧ f.path = "players" ∧ f.filename = baseName p ∧
              FileTagRow.mk f.id tg.id ∈ (tagFile failAt db p tn tv).1.fileTags) := by
  unfold tagFile
  cases h1 : failAt TagStep.lookupFile with
  | true => simp
  | false =>
    simp only [Bool.false_eq_true, if_false]
    cases hf : findFileId db "players" (baseName p) with
    | none => simp
    | some fid =>
      simp only
      cases h2 : failAt TagStep.upsertTaxonomy with
      | true => simp
      | false =>
        simp only [Bool.false_eq_true, if_false]
        cases h3 : failAt TagStep.upsertTag with
        | true => simp
        | false =>
          simp only [Bool.false_eq_true, if_false]
          cases h4 : failAt TagStep.insertAssoc with
          | true => simp
          | false =>
            simp only [Bool.false_eq_true, if_false]
            refine ⟨by simp, fun _ => ?_⟩
            obtain ⟨tax, htmem, htid, htname⟩ := getOrCreateTaxonomy_spec db tn
            obtain ⟨tg, hgmem, hgid, hgtax, hgname⟩ :=
              getOrCreateTag_spec (getOrCreateTaxonomy db tn).2 (getOrCreateTaxonomy db tn).1 tv
            obtain ⟨f, hfmem, hfid, hfpath, hfname⟩ := findFileId_spec db "players" (baseName p) fid hf
            obtain ⟨hkeep1, hkeep2⟩ :=
              insertFileTag_keeps
                (getOrCreateTag (getOrCreateTaxonomy db tn).2 (getOrCreateTaxonomy db tn).1 tv).2 fid
                (getOrCreateTag (getOrCreateTaxonomy db tn).2 (getOrCreateTaxonomy db tn).1 tv).1
            refine ⟨tax, ?_, htname, tg, ?_, by rw [hgtax, htid], hgname, f, hfmem, hfpath, hfname, ?_⟩
            · rw [hkeep1, getOrCreateTag_taxonomies]
              exact htmem
            · rw [hkeep2]
              exact hgmem
            · rw [hfid, hgid]
              exact insertFileTag_mem _ fid _

/-- C2 witness: with a storage failure injected at the association
step, tagging a registered file leaves the catalog untouched. -/
theorem tagFile_transactional_witness :
    (tagFile failAssoc catPlayers "players/report.pdf" "tags" "x").1 = catPlayers :=
  (tagFile_transactional failAssoc catPlayers "players/report.pdf" "tags" "x").1 (by decide)

/-- C7 counterexample: the whitespace-only name `" "` is not rejected.
`InitTaxonomy` tests for emptiness before trimming, so `" "` passes the
check, is normalized to the empty string, and a taxonomy row with the
empty name is created. -/
theorem initTaxonomy_whitespace_accepted :
    initTaxonomy initialCatalog " " = .ok ⟨[], [⟨1, "tags"⟩, ⟨2, ""⟩], [], [], 1, 3, 1⟩ :=
  rfl

/-- C7 amended: `InitTaxonomy` rejects exactly the literally empty name;
every other name, whitespace-only ones included, is trimmed and
lower-cased and then delegated to `AddTaxonomy`.  In particular a
whitespace-only name is delegated as the empty string, and when no
taxonomy with the empty name exists yet it creates such a row instead of
failing. -/
theorem initTaxonomy_empty_check_untrimmed (c : Catalog) (name : String) :
    (name = "" → initTaxonomy c name = .error "taxonomy name cannot be empty") ∧
      (name ≠ "" → initTaxonomy c name = addTaxonomy c (normalizeName name)) ∧
      (name ≠ "" → normalizeName name = "" → (∀ t, t ∈ c.taxonomies → t.name ≠ "") →
        initTaxonomy c name =
          .ok { c with
                taxonomies := c.taxonomies ++ [⟨c.nextTaxId, ""⟩],
                nextTaxId := c.nextTaxId + 1 }) := by
  refine ⟨fun h => by simp [initTaxonomy, h], fun h => by simp [initTaxonomy, h], ?_⟩
  intro h hn hne
  have hany : (c.taxonomies.any (fun t => t.name == "")) = false := by
    rw [List.any_eq_false]
    intro t ht
    simpa using hne t ht
  simp [initTaxonomy, h, hn, addTaxonomy, hany]

/-- C7 amended witness: on the freshly initialized catalog, the
whitespace-only name `" "` creates a taxonomy row with the empty name. -/
theorem initTaxonomy_empty_check_untrimmed_witness :
    initTaxonomy initialCatalog " " =
      .ok ⟨[], [⟨1, "tags"⟩, ⟨2, ""⟩], [], [], 1, 3, 1⟩ :=
  (initTaxonomy_empty_check_untrimmed initialCatalog " ").2.2 (by decide) (by decide)
    (by decide)

/-- C6 counterexample: tag values are not case-normalized.  With one
file tagged `fantasy` under the `tags` taxonomy, searching for the tag
value `fantasy` finds the file while `Fantasy` — the same value up to
letter case — finds nothing, so the two searches resolve to different
tag rows and different results. -/
theorem searchByTag_tag_value_case_sensitive :
    managerSearchByTag c6cat "tags" "fantasy" = .ok ["docs/a.txt"] ∧
      managerSearchByTag c6cat "tags" "Fantasy" = .ok [] :=
  ⟨rfl, rfl⟩

/-- C6 amended: taxonomy names, unlike tag values, are case-insensitive
and whitespace-trimmed.  Two non-empty taxonomy names with the same
trimmed lower-cased form produce identical tagging behaviour and
identical search results. -/
theorem taxonomyName_normalized (failAt : TagStep → Bool) (c : Catalog)
    (p v t1 t2 : String) (hnorm : normalizeName t1 = normalizeName t2)
    (h1 : t1 ≠ "") (h2 : t2 ≠ "") :
    managerTagFile failAt c p t1 v = managerTagFile failAt c p t2 v ∧
      managerSearchByTag c t1 v = managerSearchByTag c t2 v := by
  constructor
  · by_cases hp : p = "" <;> by_cases hv : v = "" <;>
      simp [managerTagFile, hp, hv, h1, h2, hnorm]
  · by_cases hv : v = "" <;> simp [managerSearchByTag, hv, h1, h2, hnorm]

/-- C6 amended witness: `"Tags"` and `" tags "` behave identically when
searching the fixture catalog. -/
theorem taxonomyName_normalized_witness :
    managerSearchByTag c6cat "Tags" "fantasy" = managerSearchByTag c6cat " tags " "fantasy" :=
  (taxonomyName_normalized noFail c6cat "players/a.txt" "fantasy" "Tags" " tags " (by decide)
    (by decide) (by decide)).2

/-! Helper lemmas about the `files` upsert. -/

/-- The mutable columns of a `files` row: the ones the upsert's `DO
UPDATE SET` clause overwrites. -/
def triple (r : FileRow) : String × Int × String := (r.hash, r.size, r.modifiedAt)

/-- Overwriting the upsert columns leaves the uniqueness key alone. -/
theorem keyMatches_update (dir fn h m : String) (s : Int) (r : FileRow) :
    keyMatches dir fn { r with hash := h, size := s, modifiedAt := m } =
      keyMatches dir fn r := rfl

/-- A non-empty list of length at most one is a singleton. -/
theorem eq_singleton_of_length_le_one {α : Type} (l : List α) (h : l.length ≤ 1)
    (hne : l ≠ []) : ∃ a, l = [a] := by
  match l with
  | [] => exact absurd rfl hne
  | [a] => exact ⟨a, rfl⟩
  | a :: b :: t => simp at h

/-- After an upsert, the rows matching the upserted key form a single
row that carries the freshly written hash, size and modification time,
provided the key was unique beforehand (the `UNIQUE(path, filename)`
constraint). -/
theorem addFileDb_filter_key (c : Catalog) (fn dir h m : String) (s : Int)
    (huniq : (c.files.filter (keyMatches dir fn)).length ≤ 1) :
    ∃ r, (addFileDb c fn dir h s m).files.filter (keyMatches dir fn) = [r] ∧
      r.hash = h ∧ r.size = s ∧ r.modifiedAt = m := by
  unfold addFileDb
  split
  case isTrue ha =>
    obtain ⟨x, hx, hpx⟩ := List.any_eq_true.mp ha
    have hne : c.files.filter (keyMatches dir fn) ≠ [] :=
      List.ne_nil_of_mem (List.mem_filter.mpr ⟨hx, hpx⟩)
    obtain ⟨x0, hx0⟩ := eq_singleton_of_length_le_one _ huniq hne
    have hcomp : ∀ r : FileRow,
        keyMatches dir fn (if keyMatches dir fn r then
          { r with hash := h, size := s, modifiedAt := m } else r) =
          keyMatches dir fn r := by
      intro r
      by_cases hk : keyMatches dir fn r = true
      · rw [if_pos hk, keyMatches_update]
      · rw [if_neg hk]
    have hx0p : keyMatches dir fn x0 = true := by
      have : x0 ∈ c.files.filter (keyMatches dir fn) := by rw [hx0]; simp
      exact (List.mem_filter.mp this).2
    refine ⟨{ x0 with hash := h, size := s, modifiedAt := m }, ?_, rfl, rfl, rfl⟩
    simp only [List.filter_map]
    have : (keyMatches dir fn ∘ fun r =>
        if keyMatches dir fn r then
          { r with hash := h, size := s, modifiedAt := m } else r) =
        keyMatches dir fn := funext fun r => hcomp r
    rw [this, hx0]
    simp [hx0p]
  case isFalse ha =>
    have hnil : c.files.filter (keyMatches dir fn) = [] := by
      rw [List.filter_eq_nil_iff]
      intro x hx hpx
      exact ha (List.any_eq_true.mpr ⟨x, hx, hpx⟩)
    refine ⟨⟨c.nextFileId, fn, dir, h, s, m⟩, ?_, rfl, rfl, rfl⟩
    rw [List.filter_append, hnil]
    simp [keyMatches]

/-- C5: registering the same (directory, filename) twice, the second
time with different hash, size and modification time, leaves exactly one
row under that key, carrying the second registration's values, and adds
no second row; the upsert is a total operation, so neither registration
fails.  The hypothesis is the `UNIQUE(path, filename)` constraint on the
starting catalog. -/
theorem addFile_upsert_overwrite (c : Catalog) (fn dir h1 m1 h2 m2 : String)
    (s1 s2 : Int)
    (huniq : (c.files.filter (keyMatches dir fn)).length ≤ 1) :
    ((addFileDb (addFileDb c fn dir h1 s1 m1) fn dir h2 s2 m2).files.filter
        (keyMatches dir fn)).map triple = [(h2, s2, m2)] ∧
      (addFileDb (addFileDb c fn dir h1 s1 m1) fn dir h2 s2 m2).files.length =
        (addFileDb c fn dir h1 s1 m1).files.length := by
  obtain ⟨r1, he1, _, _, _⟩ := addFileDb_filter_key c fn dir h1 m1 s1 huniq
  have huniq1 :
      ((addFileDb c fn dir h1 s1 m1).files.filter (keyMatches dir fn)).length ≤ 1 := by
    rw [he1]; simp
  obtain ⟨r2, he2, hh, hs, hm⟩ := addFileDb_filter_key _ fn dir h2 m2 s2 huniq1
  constructor
  · rw [he2]
    simp [triple, hh, hs, hm]
  · have hr1 : r1 ∈ (addFileDb c fn dir h1 s1 m1).files.filter (keyMatches dir fn) := by
      rw [he1]; simp
    rw [List.mem_filter] at hr1
    have hany : ((addFileDb c fn dir h1 s1 m1).files.any (keyMatches dir fn)) = true :=
      List.any_eq_true.mpr ⟨r1, hr1.1, hr1.2⟩
    conv_lhs => rw [addFileDb]
    rw [if_pos hany]
    simp

/-- C5 witness: registering `docs/a.txt` twice on the fresh catalog
leaves one row under the key, with the second hash, size and time. -/
theorem addFile_upsert_overwrite_witness :
    ((addFileDb (addFileDb initialCatalog "a.txt" "docs" "h1" 1 "m1") "a.txt" "docs"
        "h2" 2 "m2").files.filter (keyMatches "docs" "a.txt")).map triple =
      [("h2", 2, "m2")] :=
  (addFile_upsert_overwrite initialCatalog "a.txt" "docs" "h1" "m1" "h2" "m2" 1 2
    (by decide)).1

/-- C9: the upsert only touches rows under its own (directory,
filename) key.  Every row under a different key survives unchanged,
every row of the output is either under the upserted key or an original
row, and the taxonomy, tag and association tables are untouched. -/
theorem addFile_frame (c : Catalog) (fn dir h m : String) (s : Int) :
    (∀ r, r ∈ c.files → keyMatches dir fn r = false →
        r ∈ (addFileDb c fn dir h s m).files) ∧
      (∀ r, r ∈ (addFileDb c fn dir h s m).files →
        keyMatches dir fn r = true ∨ r ∈ c.files) ∧
      (addFileDb c fn dir h s m).taxonomies = c.taxonomies ∧
      (addFileDb c fn dir h s m).tags = c.tags ∧
      (addFileDb c fn dir h s m).fileTags = c.fileTags := by
  unfold addFileDb
  split
  case isTrue ha =>
    refine ⟨?_, ?_, rfl, rfl, rfl⟩
    · intro r hr hk
      refine List.mem_map.mpr ⟨r, hr, ?_⟩
      rw [if_neg (by simp [hk])]
    · intro r hr
      obtain ⟨x, hx, hux⟩ := List.mem_map.mp hr
      by_cases hk : keyMatches dir fn x = true
      · left
        rw [← hux, if_pos hk, keyMatches_update]
        exact hk
      · right
        rw [← hux, if_neg hk]
        exact hx
  case isFalse ha =>
    refine ⟨?_, ?_, rfl, rfl, rfl⟩
    · intro r hr _
      exact List.mem_append_left _ hr
    · intro r hr
      rcases List.mem_append.mp hr with hin | hin
      · right; exact hin
      · left
        have : r = ⟨c.nextFileId, fn, dir, h, s, m⟩ := by simpa using hin
        subst this
        simp [keyMatches]

/-- A catalog holding one file registered under a key different from
the one the frame witness upserts. -/
def cOther : Catalog := ⟨[⟨1, "x.txt", "other", "h", 1, "t"⟩], [⟨1, "tags"⟩], [], [], 2, 2, 1⟩

/-- C9 witness: upserting `docs/a.txt` leaves the record registered
under `other/x.txt` in place. -/
theorem addFile_frame_witness :
    FileRow.mk 1 "x.txt" "other" "h" 1 "t" ∈ (addFileDb cOther "a.txt" "docs" "h1" 1 "t").files :=
  (addFile_frame cOther "a.txt" "docs" "h1" "t" 1).1 ⟨1, "x.txt", "other", "h", 1, "t"⟩
    (by decide) (by decide)

/-- The state reached by feeding a list of readable files to
`CLI.addFile` one after the other. -/
def addAllOk (c : Catalog) (items : List (String × Option FInfo)) : Catalog :=
  items.foldl (fun acc it => (addFileCli acc it.1 it.2).1) c

/-- C8 counterexample: one unreadable file aborts the rest of its
directory walk.  Walking `bad.txt` (unreadable) followed by `good.txt`
(readable) stops at `bad.txt`: the walk returns its error and the
catalog still holds no file at all, so `good.txt` was never processed. -/
theorem addDirectory_walk_aborts :
    addDirectory initialCatalog [("bad.txt", none), ("good.txt", some fiGood)] =
      (initialCatalog, some "failed to get file info") ∧
      initialCatalog.files = [] :=
  ⟨rfl, rfl⟩

/-- Every top-level match of `HandleAddCommand` is processed whatever
happened on the earlier matches: the loop state after processing `ms ++
[m]` is the state after `ms` fed to `m`'s processing, errors
notwithstanding. -/
theorem handleAddMatches_append (ms : List AddMatch) (m : AddMatch) :
    ∀ c, handleAddMatches c (ms ++ [m]) = (processMatch (handleAddMatches c ms) m).1 := by
  induction ms with
  | nil => intro c; rfl
  | cons a t ih => intro c; exact ih (processMatch c a).1

/-- C8 amended: per-item failures are isolated between the top-level
matches of `fart add`, but not inside one directory walk.  A walk whose
items are readable up to an unreadable one aborts there: the files
before the failure are registered, the walk returns the failure as its
error, and the items after it are never processed.  Separately, the
match loop of `HandleAddCommand` always continues: every top-level
match is processed regardless of earlier warnings. -/
theorem add_walk_abort_match_isolation (c : Catalog)
    (pre post : List (String × Option FInfo)) (p : String)
    (hpre : ∀ it, it ∈ pre → it.2.isSome = true) :
    addDirectory c (pre ++ (p, none) :: post) =
        (addAllOk c pre, some "failed to get file info") ∧
      ∀ ms m, handleAddMatches c (ms ++ [m]) = (processMatch (handleAddMatches c ms) m).1 := by
  refine ⟨?_, fun ms m => handleAddMatches_append ms m c⟩
  induction pre generalizing c with
  | nil => rfl
  | cons it t ih =>
    obtain ⟨fi, hfi⟩ := Option.isSome_iff_exists.mp (hpre it (List.mem_cons_self it t))
    have step : addFileCli c it.1 it.2 =
        (addFileDb c (baseName it.1) (dirName it.1) fi.hash fi.size fi.modifiedAt, none) := by
      rw [hfi]
      rfl
    calc addDirectory c ((it :: t) ++ (p, none) :: post)
        = addDirectory (addFileCli c it.1 it.2).1 (t ++ (p, none) :: post) := by
          show (match addFileCli c it.1 it.2 with
            | (c', none) => addDirectory c' (t ++ (p, none) :: post)
            | (_, some e) => (c, some e)) = _
          rw [step]
      _ = (addAllOk (addFileCli c it.1 it.2).1 t, some "failed to get file info") :=
          ih _ (fun x hx => hpre x (List.mem_cons_of_mem _ hx))
      _ = (addAllOk c (it :: t), some "failed to get file info") := rfl

/-- C8 amended witness: with a readable file before and after the
unreadable one, the walk registers the first file, stops at the
unreadable one, and never reaches the last. -/
theorem add_walk_abort_match_isolation_witness :
    addDirectory initialCatalog
        [("a.txt", some fiGood), ("bad.txt", none), ("z.txt", some fiGood)] =
      (addAllOk initialCatalog [("a.txt", some fiGood)], some "failed to get file info") :=
  (add_walk_abort_match_isolation initialCatalog [("a.txt", some fiGood)]
    [("z.txt", some fiGood)] "bad.txt" (by decide)).1

/-! Lemmas about the path renderings, feeding the verify pass and the
rendering-equivalence analysis. -/

/-- A string built from a character list is empty exactly when the list
is. -/
theorem mk_eq_empty_iff (l : List Char) : (⟨l⟩ : String) = "" ↔ l = [] := by
  constructor
  · intro h
    have := congrArg String.data h
    simpa using this
  · intro h
    rw [h]

/-- The empty-path guard never returns the empty list. -/
theorem dotIfEmpty_ne_nil (l : List Char) : dotIfEmpty l ≠ [] := by
  unfold dotIfEmpty
  split
  · simp
  · assumption

/-- The empty-path guard is the identity on non-empty lists. -/
theorem dotIfEmpty_of_ne_nil (l : List Char) (h : l ≠ []) : dotIfEmpty l = l := by
  unfold dotIfEmpty
  exact if_neg h

/-- Cleaning never yields the empty string: an empty result is rendered
as `"."`. -/
theorem clean_ne_empty (s : String) : clean s ≠ "" := by
  intro h
  have h2 : cleanData s.data = [] := by
    have := congrArg String.data h
    simpa [clean] using this
  unfold cleanData at h2
  split at h2
  · simp at h2
  · exact dotIfEmpty_ne_nil _ h2

/-- Joining a pair that is not both-empty never yields the empty
string, hence the `""` sentinel of `GetFilePathByHash` is unambiguous
for such records. -/
theorem goJoin_ne_empty (a b : String) (hab : a ≠ "" ∨ b ≠ "") : goJoin a b ≠ "" := by
  unfold goJoin
  by_cases ha : a = ""
  · rcases hab with h | h
    · exact absurd ha h
    · rw [if_neg (by simpa using ha), if_pos h]
      exact clean_ne_empty _
  · rw [if_pos ha]
    exact clean_ne_empty _

/-- C3: the forward verify pass classifies every live path by its
content hash.  When no catalog row holds the hash, a `New file` report
for the path is emitted; when the row found by hash renders to exactly
the live path, that path contributes no report; when it renders to a
different path, a `Moved` report from the recorded path to the live one
is emitted.  The hypothesis rules out the degenerate row whose directory
and filename are both empty, which the CLI never writes, so the `""`
sentinel of `GetFilePathByHash` is unambiguous. -/
theorem verifyForward_classification (c : Catalog) (live : List (String × String))
    (p h : String)
    (hnz : ∀ r, r ∈ c.files → r.path ≠ "" ∨ r.filename ≠ "")
    (hmem : (p, h) ∈ live) :
    (findByHash c h = none → Report.NewFile p ∈ verifyForward c live) ∧
      (∀ r, findByHash c h = some r → goJoin r.path r.filename = p →
        verifyForwardStep c (p, h) = none) ∧
      (∀ r, findByHash c h = some r → goJoin r.path r.filename ≠ p →
        Report.Moved (goJoin r.path r.filename) p ∈ verifyForward c live) := by
  have hstep_eq : verifyForwardStep c (p, h) =
      (if getFilePathByHash c h = "" then some (.NewFile p)
       else if getFilePathByHash c h ≠ p then some (.Moved (getFilePathByHash c h) p)
       else none) := rfl
  refine ⟨?_, ?_, ?_⟩
  · intro hf
    have hmp : getFilePathByHash c h = "" := by
      unfold getFilePathByHash
      rw [hf]
    have hstep : verifyForwardStep c (p, h) = some (.NewFile p) := by
      rw [hstep_eq, hmp, if_pos rfl]
    exact List.mem_filterMap.mpr ⟨(p, h), hmem, hstep⟩
  · intro r hf heq
    have hmp : getFilePathByHash c h = p := by
      unfold getFilePathByHash
      rw [hf]
      exact heq
    have hne : p ≠ "" := by
      rw [← hmp]
      rw [hmp, ← heq]
      exact goJoin_ne_empty _ _ (hnz r (List.mem_of_find?_eq_some hf))
    rw [hstep_eq, hmp, if_neg hne, if_neg (by simp)]
  · intro r hf hne
    have hmp : getFilePathByHash c h = goJoin r.path r.filename := by
      unfold getFilePathByHash
      rw [hf]
    have hne0 : goJoin r.path r.filename ≠ "" :=
      goJoin_ne_empty _ _ (hnz r (List.mem_of_find?_eq_some hf))
    have hstep : verifyForwardStep c (p, h) = some (.Moved (goJoin r.path r.filename) p) := by
      rw [hstep_eq, hmp, if_neg hne0, if_pos hne]
    exact List.mem_filterMap.mpr ⟨(p, h), hmem, hstep⟩

/-- A live snapshot for the verify fixtures: the registered file at its
recorded place and an unknown newcomer. -/
def live3 : List (String × String) := [("docs/report.pdf", "h1"), ("new.txt", "h2")]

/-- C3 witness: on the fixture catalog, the unknown hash is reported as
a new file. -/
theorem verifyForward_classification_witness :
    Report.NewFile "new.txt" ∈ verifyForward catDocs live3 :=
  (verifyForward_classification catDocs live3 "new.txt" "h2" (by decide) (by decide)).1
    (by decide)

/-- Splitting a list at the first occurrence of a distinguished element
is unambiguous. -/
theorem append_cons_inj_of_not_mem {α : Type} (x : α) (u : List α) :
    ∀ v u2 v2 : List α, x ∉ u → x ∉ v → u ++ x :: u2 = v ++ x :: v2 →
      u = v ∧ u2 = v2 := by
  induction u with
  | nil =>
    intro v u2 v2 _ hv h
    match v with
    | [] => simpa using h
    | b :: v' =>
      rw [List.nil_append, List.cons_append, List.cons_eq_cons] at h
      simp only [List.mem_cons, not_or] at hv
      exact absurd h.1 hv.1
  | cons a u' ih =>
    intro v u2 v2 hu hv h
    match v with
    | [] =>
      rw [List.cons_append, List.nil_append, List.cons_eq_cons] at h
      simp only [List.mem_cons, not_or] at hu
      exact absurd h.1.symm hu.1
    | b :: v' =>
      rw [List.cons_append, List.cons_append, List.cons_eq_cons] at h
      simp only [List.mem_cons, not_or] at hu hv
      obtain ⟨ih1, ih2⟩ := ih v' u2 v2 hu.2 hv.2 h.2
      exact ⟨by rw [h.1, ih1], ih2⟩

/-- Strings have equal character lists exactly when they are equal. -/
theorem data_inj {s t : String} (h : s.data = t.data) : s = t := congrArg String.mk h

/-- The rendering `path ++ "/" ++ filename` is injective as long as
filenames hold no slash — the shape `filepath.Base` guarantees. -/
theorem render_inj (a b e d : String)
    (hb : ('/' : Char) ∉ b.data) (hd : ('/' : Char) ∉ d.data)
    (h : a ++ "/" ++ b = e ++ "/" ++ d) : a = e ∧ b = d := by
  have hdata : a.data ++ '/' :: b.data = e.data ++ '/' :: d.data := by
    have h2 := congrArg String.data h
    have hsl : ("/" : String).data = ['/'] := rfl
    have hap : ∀ s t : String, (s ++ t).data = s.data ++ t.data := fun _ _ => rfl
    rw [hap, hap, hap, hap, hsl, List.append_assoc, List.singleton_append,
      List.append_assoc, List.singleton_append] at h2
    exact h2
  have hrev := congrArg List.reverse hdata
  rw [List.reverse_append, List.reverse_append, List.reverse_cons, List.reverse_cons,
    List.append_assoc, List.append_assoc, List.singleton_append, List.singleton_append]
    at hrev
  obtain ⟨h1, h2⟩ :=
    append_cons_inj_of_not_mem '/' b.data.reverse d.data.reverse a.data.reverse
      e.data.reverse (by simpa using hb) (by simpa using hd) hrev
  exact ⟨data_inj (List.reverse_inj.mp h2), data_inj (List.reverse_inj.mp h1)⟩

/-- Distinct rows render to distinct path strings, so the listing of
the whole `files` table has no duplicates.  The hypotheses model the
`UNIQUE(path, filename)` constraint and the slash-free filenames written
by the CLI. -/
theorem getAllFiles_nodup (c : Catalog)
    (hkeys : c.files.Pairwise (fun r1 r2 => ¬(r1.path = r2.path ∧ r1.filename = r2.filename)))
    (hslash : ∀ r, r ∈ c.files → ('/' : Char) ∉ r.filename.data) :
    (getAllFiles c).Nodup := by
  refine List.pairwise_map.mpr (hkeys.imp_of_mem ?_)
  intro r1 r2 h1 h2 hR hEq
  obtain ⟨hp, hf⟩ := render_inj r1.path r1.filename r2.path r2.filename
    (hslash r1 h1) (hslash r2 h2) hEq
  exact hR ⟨hp, hf⟩

/-- Membership of a `Missing` finding in the backward scan of a path
list: the path is listed and does not exist. -/
theorem missing_mem_iff (l : List String) (ex : String → Bool) (q : String) :
    Report.Missing q ∈ l.filterMap (fun s => if ex s then none else some (Report.Missing s)) ↔
      ex q = false ∧ q ∈ l := by
  rw [List.mem_filterMap]
  constructor
  · rintro ⟨s, hs, hf⟩
    by_cases hex : ex s = true
    · rw [if_pos hex] at hf
      exact absurd hf (by simp)
    · rw [if_neg hex] at hf
      have : s = q := by simpa using hf
      subst this
      exact ⟨by simpa using hex, hs⟩
  · rintro ⟨hex, hq⟩
    exact ⟨q, hq, by rw [if_neg (by simp [hex])]⟩

/-- On a duplicate-free path list, the backward scan emits exactly one
`Missing` finding for a listed non-existing path. -/
theorem countMissing_backward (l : List String) (ex : String → Bool) (q : String)
    (hnd : l.Nodup) (hq : q ∈ l) (hex : ex q = false) :
    countMissing (l.filterMap (fun s => if ex s then none else some (Report.Missing s))) q
      = 1 := by
  induction l with
  | nil => simp at hq
  | cons a t ih =>
    rw [List.nodup_cons] at hnd
    rcases List.mem_cons.mp hq with rfl | hq'
    · have hstep : List.filterMap
          (fun s => if ex s then none else some (Report.Missing s)) (q :: t) =
          Report.Missing q ::
            t.filterMap (fun s => if ex s then none else some (Report.Missing s)) := by
        rw [List.filterMap_cons]
        simp [hex]
      rw [hstep]
      unfold countMissing
      rw [List.countP_cons]
      have h0 : List.countP (fun x => decide (x = Report.Missing q))
          (t.filterMap (fun s => if ex s then none else some (Report.Missing s))) = 0 := by
        rw [List.countP_eq_zero]
        intro x hx
        simp only [decide_eq_true_eq]
        rintro rfl
        exact hnd.1 ((missing_mem_iff t ex q).mp hx).2
      rw [h0]
      simp
    · have hqa : q ≠ a := fun hcontra => hnd.1 (hcontra ▸ hq')
      have haq : a ≠ q := fun hcontra => hqa hcontra.symm
      have ht := ih hnd.2 hq'
      by_cases hexa : ex a = true
      · have hstep : List.filterMap
            (fun s => if ex s then none else some (Report.Missing s)) (a :: t) =
            t.filterMap (fun s => if ex s then none else some (Report.Missing s)) := by
          rw [List.filterMap_cons]
          simp [hexa]
        rw [hstep]
        exact ht
      · have hstep : List.filterMap
            (fun s => if ex s then none else some (Report.Missing s)) (a :: t) =
            Report.Missing a ::
              t.filterMap (fun s => if ex s then none else some (Report.Missing s)) := by
          rw [List.filterMap_cons]
          simp [hexa]
        rw [hstep]
        unfold countMissing at ht ⊢
        rw [List.countP_cons, ht]
        simp [haq]

/-- C4: in the backward pass of verify, every catalog path missing from
the filesystem is reported exactly once, and no existing catalog path is
reported.  The hypotheses model the `UNIQUE(path, filename)` constraint
and the slash-free filenames written by the CLI, which make the rendered
path list duplicate-free. -/
theorem verifyBackward_missing (c : Catalog) (ex : String → Bool) (q : String)
    (hkeys : c.files.Pairwise (fun r1 r2 => ¬(r1.path = r2.path ∧ r1.filename = r2.filename)))
    (hslash : ∀ r, r ∈ c.files → ('/' : Char) ∉ r.filename.data)
    (hq : q ∈ getAllFiles c) :
    (ex q = false → countMissing (verifyBackward c ex) q = 1) ∧
      (ex q = true → Report.Missing q ∉ verifyBackward c ex) := by
  constructor
  · intro hex
    exact countMissing_backward _ ex q (getAllFiles_nodup c hkeys hslash) hq hex
  · intro hex hmem
    have hcontra := ((missing_mem_iff _ ex q).mp hmem).1
    rw [hex] at hcontra
    exact absurd hcontra (by simp)

/-- C4 witness: with no path existing on the filesystem, the fixture
catalog's one recorded path is reported missing exactly once. -/
theorem verifyBackward_missing_witness :
    countMissing (verifyBackward catDocs exNone) "docs/report.pdf" = 1 :=
  (verifyBackward_missing catDocs exNone "docs/report.pdf" (by simp [catDocs]) (by decide)
    (by decide)).1 rfl

/-! Computation lemmas for `clean` on well-behaved inputs, comparing the
two path renderings of the store. -/

/-- Splitting never produces the empty list of components. -/
theorem splitCh_ne_nil (sep : Char) (l : List Char) : splitCh sep l ≠ [] := by
  induction l with
  | nil => simp [splitCh]
  | cons c cs ih =>
    rw [splitCh]
    split
    · simp
    · split <;> simp

/-- A list without the separator is a single component. -/
theorem splitCh_not_mem (sep : Char) (l : List Char) (h : sep ∉ l) :
    splitCh sep l = [l] := by
  induction l with
  | nil => rfl
  | cons c cs ih =>
    simp only [List.mem_cons, not_or] at h
    rw [splitCh, ih h.2]
    simp [Ne.symm h.1]

/-- Splitting separates at the first separator occurrence. -/
theorem splitCh_append (sep : Char) (a b : List Char) (ha : sep ∉ a) :
    splitCh sep (a ++ sep :: b) = a :: splitCh sep b := by
  induction a with
  | nil =>
    rw [List.nil_append, splitCh]
    cases h : splitCh sep b with
    | nil => exact absurd h (splitCh_ne_nil sep b)
    | cons hd tl => simp [h]
  | cons c cs ih =>
    simp only [List.mem_cons, not_or] at ha
    rw [List.cons_append, splitCh, ih ha.2]
    simp [Ne.symm ha.1]

/-- Joining one component inserts no separator. -/
theorem intercalate_one (s x : List Char) : List.intercalate s [x] = x := by
  simp [List.intercalate]

/-- Joining two components inserts the separator once. -/
theorem intercalate_two (s x y : List Char) : List.intercalate s [x, y] = x ++ s ++ y := by
  simp [List.intercalate, List.intersperse]

/-- A plain path component: non-empty, not one of the special `.` and
`..` components, and holding no slash.  The directories and filenames
the CLI writes through `filepath.Rel`, `filepath.Dir` and
`filepath.Base` are of this shape, apart from the `"."` directory. -/
def plainComp (s : String) : Prop :=
  s ≠ "" ∧ s ≠ "." ∧ s ≠ ".." ∧ ('/' : Char) ∉ s.data

instance (s : String) : Decidable (plainComp s) := by
  unfold plainComp
  infer_instance

/-- The decomposition of the rendered path into character lists. -/
theorem data_append_slash (a b : String) :
    (a ++ "/" ++ b).data = a.data ++ '/' :: b.data := by
  have hap : ∀ s t : String, (s ++ t).data = s.data ++ t.data := fun _ _ => rfl
  rw [hap, hap, List.append_assoc]
  rfl

/-- Unfolding of `splitCh` on a cons cell once the split of the tail is
known. -/
theorem splitCh_cons_eq (sep c : Char) (cs : List Char) (h : List Char)
    (t : List (List Char)) (hs : splitCh sep cs = h :: t) :
    splitCh sep (c :: cs) = if c = sep then [] :: h :: t else (c :: h) :: t := by
  rw [splitCh, hs]

/-- Appending a separator and a separator-free tail appends one final
component to the split. -/
theorem splitCh_append_one (sep : Char) (l b : List Char) (hb : sep ∉ b) :
    splitCh sep (l ++ sep :: b) = splitCh sep l ++ [b] := by
  induction l with
  | nil =>
    rw [List.nil_append, splitCh_cons_eq sep sep b b [] (splitCh_not_mem sep b hb),
      if_pos rfl]
    rfl
  | cons c l' ih =>
    rw [List.cons_append, splitCh, ih, splitCh]
    cases hs : splitCh sep l' with
    | nil => exact absurd hs (splitCh_ne_nil sep l')
    | cons h t =>
      simp only [hs, List.cons_append]
      by_cases hc : c = sep <;> simp [hc]

/-- Joining at least two components starts with the first component and
one separator. -/
theorem intercalate_cons_cons (s x y : List Char) (t : List (List Char)) :
    List.intercalate s (x :: y :: t) = x ++ s ++ List.intercalate s (y :: t) := by
  simp [List.intercalate, List.intersperse, List.append_assoc]

/-- Joining with one extra final component appends one separator and
that component. -/
theorem intercalate_append_one (s x : List Char) (cs : List (List Char)) (h : cs ≠ []) :
    List.intercalate s (cs ++ [x]) = List.intercalate s cs ++ s ++ x := by
  induction cs with
  | nil => exact absurd rfl h
  | cons c t ih =>
    cases t with
    | nil =>
      rw [List.cons_append, List.nil_append, intercalate_two, intercalate_one]
    | cons t1 t' =>
      have ih' := ih (by simp)
      rw [List.cons_append] at ih'
      rw [List.cons_append, List.cons_append, intercalate_cons_cons, ih',
        intercalate_cons_cons]
      simp [List.append_assoc]

/-- Joining the split of a list with the separator restores the list. -/
theorem splitCh_intercalate (sep : Char) (l : List Char) :
    List.intercalate [sep] (splitCh sep l) = l := by
  induction l with
  | nil => rfl
  | cons c cs ih =>
    cases hs : splitCh sep cs with
    | nil => exact absurd hs (splitCh_ne_nil sep cs)
    | cons h t =>
      rw [hs] at ih
      rw [splitCh_cons_eq sep c cs h t hs]
      by_cases hc : c = sep
      · rw [if_pos hc, intercalate_cons_cons, ih]
        simp [hc]
      · rw [if_neg hc]
        cases t with
        | nil =>
          rw [intercalate_one] at ih ⊢
          rw [ih]
        | cons t1 t' =>
          rw [intercalate_cons_cons] at ih ⊢
          rw [← ih]
          simp

/-- The clean step appends every component other than `..` to the
accumulator. -/
theorem cleanStep_other (acc : List (List Char)) (c : List Char)
    (hc : c ≠ ['.', '.']) : cleanStep false acc c = acc ++ [c] := by
  unfold cleanStep
  rw [if_neg hc]

/-- On an accumulator made of `..` components only, a further `..` is
kept: a relative path may keep leading parent steps. -/
theorem cleanStep_dots (acc : List (List Char))
    (hacc : ∀ c ∈ acc, c = ['.', '.']) :
    cleanStep false acc ['.', '.'] = acc ++ [['.', '.']] := by
  unfold cleanStep
  rw [if_pos rfl]
  cases hl : acc.getLast? with
  | none =>
    have h0 : acc = [] := List.getLast?_eq_none_iff.mp hl
    subst h0
    simp
  | some lastc =>
    have hmem : lastc ∈ acc := by
      obtain ⟨hne', heq⟩ := List.mem_getLast?_eq_getLast hl
      rw [heq]
      exact List.getLast_mem hne'
    rw [hacc lastc hmem]
    simp

/-- Folding the clean step over `..`-free components appends them all. -/
theorem foldl_cleanStep_no_dots (rest : List (List Char)) :
    ∀ acc, (∀ c ∈ rest, c ≠ ['.', '.']) →
      List.foldl (cleanStep false) acc rest = acc ++ rest := by
  induction rest with
  | nil =>
    intro acc _
    simp
  | cons c t ih =>
    intro acc h
    rw [List.foldl_cons, cleanStep_other acc c (h c (List.mem_cons_self c t)),
      ih _ (fun x hx => h x (List.mem_cons_of_mem _ hx))]
    simp

/-- Folding the clean step over leading `..` components keeps them
all. -/
theorem foldl_cleanStep_dots (ds : List (List Char)) :
    ∀ acc, (∀ c ∈ ds, c = ['.', '.']) → (∀ c ∈ acc, c = ['.', '.']) →
      List.foldl (cleanStep false) acc ds = acc ++ ds := by
  induction ds with
  | nil =>
    intro acc _ _
    simp
  | cons c t ih =>
    intro acc hds hacc
    have hc : c = ['.', '.'] := hds c (List.mem_cons_self c t)
    subst hc
    rw [List.foldl_cons, cleanStep_dots acc hacc,
      ih _ (fun x hx => hds x (List.mem_cons_of_mem _ hx)) ?_]
    · simp
    · intro x hx
      rcases List.mem_append.mp hx with h | h
      · exact hacc x h
      · simpa using h

/-- Folding the clean step over leading `..` components followed by
`..`-free components is the identity. -/
theorem foldl_cleanStep_clean (ds rest : List (List Char))
    (hds : ∀ c ∈ ds, c = ['.', '.']) (hrest : ∀ c ∈ rest, c ≠ ['.', '.']) :
    List.foldl (cleanStep false) [] (ds ++ rest) = ds ++ rest := by
  rw [List.foldl_append, foldl_cleanStep_dots ds [] hds (by simp),
    foldl_cleanStep_no_dots rest _ hrest]
  simp

/-- Recognizer for a cleaned, non-rooted relative directory other than
`"."`: slash-separated components, each non-empty, not `.` and holding
no slash, with any `..` components only at the front.  This is the
shape `filepath.Rel(".", filepath.Dir(path))` hands to the store —
nested directories like `2025/books` and escaping ones like `../other`
included — apart from the `"."` directory itself. -/
def cleanRelDir (s : String) : Bool :=
  ((splitCh '/' s.data).all (fun c => decide (c ≠ [] ∧ c ≠ ['.'] ∧ ('/' : Char) ∉ c))) &&
  (((splitCh '/' s.data).dropWhile (fun c => c == ['.', '.'])).all
    (fun c => c != ['.', '.']))

/-- A cleaned relative directory is never the empty string. -/
theorem cleanRelDir_ne_empty (a : String) (ha : cleanRelDir a = true) : a ≠ "" := by
  intro h
  subst h
  exact absurd ha (by decide)

/-- Cleaning is the identity on the rendering of a cleaned relative
directory with a plain filename: `filepath.Join` changes nothing for
such records. -/
theorem clean_relDir_pair (a b : String) (ha : cleanRelDir a = true)
    (hpb : plainComp b) : clean (a ++ "/" ++ b) = a ++ "/" ++ b := by
  obtain ⟨hb1, hb2, hb3, hb4⟩ := hpb
  have hdb : b.data ≠ [] := fun h => hb1 (data_inj h)
  have hdb2 : b.data ≠ ['.'] := fun h => hb2 (data_inj h)
  have hdb3 : b.data ≠ ['.', '.'] := fun h => hb3 (data_inj h)
  unfold cleanRelDir at ha
  rw [Bool.and_eq_true] at ha
  obtain ⟨hall, hdots⟩ := ha
  rw [List.all_eq_true] at hall hdots
  have hseg : ∀ c ∈ splitCh '/' a.data, c ≠ [] ∧ c ≠ ['.'] ∧ ('/' : Char) ∉ c := by
    intro c hc
    simpa using hall c hc
  have hrest : ∀ c ∈ (splitCh '/' a.data).dropWhile (fun c => c == ['.', '.']),
      c ≠ ['.', '.'] := by
    intro c hc
    simpa using hdots c hc
  have hdtake : ∀ c ∈ (splitCh '/' a.data).takeWhile (fun c => c == ['.', '.']),
      c = ['.', '.'] := by
    intro c hc
    simpa using List.mem_takeWhile_imp hc
  have hadata : a.data ≠ [] := by
    intro h0
    have hmem0 : ([] : List Char) ∈ splitCh '/' a.data := by
      rw [h0]
      simp [splitCh]
    exact (hseg [] hmem0).1 rfl
  have hroot : isRooted (a.data ++ '/' :: b.data) = false := by
    cases hcase : a.data with
    | nil => exact absurd hcase hadata
    | cons c0 rest0 =>
      by_cases hc0 : c0 = '/'
      · exfalso
        subst hc0
        have hmem0 : ([] : List Char) ∈ splitCh '/' a.data := by
          rw [hcase]
          cases hs : splitCh '/' rest0 with
          | nil => exact absurd hs (splitCh_ne_nil '/' rest0)
          | cons h t =>
            rw [splitCh_cons_eq '/' '/' rest0 h t hs, if_pos rfl]
            simp
        exact (hseg [] hmem0).1 rfl
      · rw [List.cons_append]
        show (c0 == '/') = false
        simp [hc0]
  have hkept : keptComps (a.data ++ '/' :: b.data) = splitCh '/' a.data ++ [b.data] := by
    unfold keptComps
    rw [splitCh_append_one '/' a.data b.data hb4, List.filter_append]
    have h1 : (splitCh '/' a.data).filter (fun c => !(c = [] ∨ c = ['.'] : Bool)) =
        splitCh '/' a.data := by
      rw [List.filter_eq_self]
      intro c hc
      simp [(hseg c hc).1, (hseg c hc).2.1]
    have h2 : List.filter (fun c => !(c = [] ∨ c = ['.'] : Bool)) [b.data] = [b.data] := by
      simp [hdb, hdb2]
    rw [h1, h2]
  have hdecomp : splitCh '/' a.data =
      (splitCh '/' a.data).takeWhile (fun c => c == ['.', '.']) ++
        (splitCh '/' a.data).dropWhile (fun c => c == ['.', '.']) :=
    (List.takeWhile_append_dropWhile _ _).symm
  have hfold : List.foldl (cleanStep false) [] (splitCh '/' a.data ++ [b.data]) =
      splitCh '/' a.data ++ [b.data] := by
    rw [hdecomp, List.append_assoc]
    refine foldl_cleanStep_clean _ _ hdtake ?_
    intro c hc
    rcases List.mem_append.mp hc with h | h
    · exact hrest c h
    · have hcb : c = b.data := by simpa using h
      rw [hcb]
      exact hdb3
  apply data_inj
  show cleanData (a ++ "/" ++ b).data = (a ++ "/" ++ b).data
  rw [data_append_slash]
  have hne : a.data ++ '/' :: b.data ≠ [] := by simp
  unfold cleanData
  rw [if_neg hne, hroot, hkept, hfold,
    intercalate_append_one ['/'] b.data (splitCh '/' a.data) (splitCh_ne_nil '/' a.data),
    splitCh_intercalate]
  simp [dotIfEmpty, hadata, List.append_assoc]

/-- Cleaning a rendering whose directory is `"."` drops the leading
`./`. -/
theorem clean_dot_pair (b : String) (hpb : plainComp b) :
    clean ("." ++ "/" ++ b) = b := by
  obtain ⟨hb1, hb2, hb3, hb4⟩ := hpb
  have hdb : b.data ≠ [] := fun h => hb1 (data_inj h)
  have hdb2 : b.data ≠ ['.'] := fun h => hb2 (data_inj h)
  have hdb3 : b.data ≠ ['.', '.'] := fun h => hb3 (data_inj h)
  apply data_inj
  show cleanData ("." ++ "/" ++ b).data = b.data
  rw [data_append_slash]
  have hdot : ("." : String).data = ['.'] := rfl
  rw [hdot]
  have hne : ['.'] ++ '/' :: b.data ≠ [] := by simp
  have hroot : isRooted (['.'] ++ '/' :: b.data) = false := by
    rw [List.singleton_append]
    show (('.' : Char) == '/') = false
    decide
  have hkept : keptComps (['.'] ++ '/' :: b.data) = [b.data] := by
    unfold keptComps
    rw [splitCh_append '/' ['.'] b.data (by decide), splitCh_not_mem '/' _ hb4]
    simp [hdb, hdb2]
  have hfold : List.foldl (cleanStep false) [] [b.data] = [b.data] := by
    simp [cleanStep, hdb3]
  unfold cleanData
  rw [if_neg hne, hroot, hkept, hfold, intercalate_one]
  simp [dotIfEmpty, hdb]

/-- C10 counterexample: the two renderings disagree on the catalog's
`"."` directory.  For the record of `a.txt` registered in the current
directory, `GetFilePathByHash` returns `a.txt` — `filepath.Join` cleans
away the `./` — while `GetAllFiles` renders the same record as
`./a.txt` through SQL string concatenation. -/
theorem render_mismatch_dot_directory :
    getFilePathByHash catDot "h1" = "a.txt" ∧ getAllFiles catDot = ["./a.txt"] :=
  ⟨rfl, rfl⟩

/-- C10 amended: for a record whose directory is any cleaned non-rooted
relative path other than `"."` — a single plain component, a nested
`a/b`-style directory, or an escaping `../x`-style one — and whose
filename is a plain component, `GetFilePathByHash` and `GetAllFiles`
render the same `directory/filename` string; but for a record whose
directory is `"."`, `GetFilePathByHash` returns the bare filename while
`GetAllFiles` keeps the `./` prefix, so the two renderings differ
exactly there. -/
theorem path_render_agreement (c : Catalog) (r : FileRow)
    (hfind : findByHash c r.hash = some r) (hfn : plainComp r.filename) :
    (cleanRelDir r.path = true →
      getFilePathByHash c r.hash = r.path ++ "/" ++ r.filename ∧
        r.path ++ "/" ++ r.filename ∈ getAllFiles c) ∧
      (r.path = "." →
        getFilePathByHash c r.hash = r.filename ∧
          "./" ++ r.filename ∈ getAllFiles c) := by
  have hmem : r ∈ c.files := List.mem_of_find?_eq_some hfind
  have hget : getFilePathByHash c r.hash = goJoin r.path r.filename := by
    unfold getFilePathByHash
    rw [hfind]
  constructor
  · intro hp
    refine ⟨?_, List.mem_map.mpr ⟨r, hmem, rfl⟩⟩
    rw [hget, goJoin, if_pos (cleanRelDir_ne_empty r.path hp)]
    exact clean_relDir_pair r.path r.filename hp hfn
  · intro hp
    constructor
    · have hpne : r.path ≠ "" := by rw [hp]; decide
      rw [hget, goJoin, if_pos hpne, hp]
      exact clean_dot_pair r.filename hfn
    · have hren : ("./" ++ r.filename : String) = r.path ++ "/" ++ r.filename := by
        rw [hp]
        exact data_inj rfl
      rw [hren]
      exact List.mem_map.mpr ⟨r, hmem, rfl⟩

/-- A catalog holding one file registered two directory levels deep. -/
def catNested : Catalog :=
  ⟨[⟨1, "x.pdf", "2025/books", "h1", 7, "t"⟩], [⟨1, "tags"⟩], [], [], 2, 2, 1⟩

/-- C10 amended witness: for the record of `2025/books/x.pdf`, nested
two directory levels deep, both renderings agree. -/
theorem path_render_agreement_witness :
    getFilePathByHash catNested "h1" = "2025/books/x.pdf" :=
  ((path_render_agreement catNested ⟨1, "x.pdf", "2025/books", "h1", 7, "t"⟩
    (by decide) (by decide)).1 (by decide)).1

end Fart
